import Mathlib

/-!
A shallow embedding of `fixed_pool` (src/lib.rs): a fixed-capacity object
pool whose occupancy is tracked by a bitset of machine words, claimed via a
trailing-ones first-fit scan and released by clearing the claimed bit.

Modelling choices:
* `usize` is modelled as `Nat` together with the word width `W = 64`
  (`usize::BITS` on the 64-bit targets the crate is built for); every word
  value stored in the occupancy bitset stays below `2 ^ 64`.
* Rust's wrapping shift semantics are used for `usize::MAX << r`
  (high bits discarded), i.e. `(wordMax <<< r) % 2 ^ 64`.
* The pool's state is the pair of the element vector and the occupancy
  word vector.  Atomic operations are modelled at operation granularity:
  each complete `pull` / handle `drop` is one step of a transition relation,
  which is the standard sequentially-consistent interleaving model.  Under
  this model the retry branch of `pull`'s inner loop (a lost `fetch_or`
  race) is unreachable, because the word cannot change between the load and
  the `fetch_or` of the same step.
* The `Reset` trait is modelled as a function `α → α` passed to the drop
  operation; `NoopReset` is the identity.
-/

/-- Bit width of `usize` (`usize::BITS`) on the modelled 64-bit target. -/
def W : Nat := 64

/-- `usize::MAX`, the all-ones machine word. -/
def wordMax : Nat := 2 ^ 64 - 1

/-- `v.trailing_ones()` on a `usize` value `v < 2 ^ fuel`: the number of
consecutive one bits starting from bit 0.  `fuel` is the word width. -/
def trailingOnes : Nat → Nat → Nat
  | 0, _ => 0
  | fuel + 1, v => if v % 2 = 1 then trailingOnes fuel (v / 2) + 1 else 0

/-- The word of a bitset at a given word index; out-of-range reads give `0`
(such reads never happen along the code paths the source exercises, since
`get_unchecked` is only called with in-range indices there). -/
def wordAt : List Nat → Nat → Nat
  | [], _ => 0
  | v :: _, 0 => v
  | _ :: rest, n + 1 => wordAt rest n

/-- Bit `k` of the occupancy bitset: bit `k % 64` of word `k / 64`,
mirroring `index / usize::BITS` and `index % usize::BITS` in the source. -/
def occBit (occ : List Nat) (k : Nat) : Bool :=
  Nat.testBit (wordAt occ (k / 64)) (k % 64)

/-- `Vec::get_unchecked`-style list lookup used to model element access. -/
def elemAt? : List α → Nat → Option α
  | [], _ => none
  | x :: _, 0 => some x
  | _ :: rest, n + 1 => elemAt? rest n

/-- In-place update of one element, modelling `&mut` access through a cell. -/
def modifyIdx (f : α → α) : Nat → List α → List α
  | _, [] => []
  | 0, x :: xs => f x :: xs
  | n + 1, x :: xs => x :: modifyIdx f n xs

/-- The shared pool state `FixedPoolInner`: the element cells and the
`pulled_elements` occupancy bitset. -/
structure FixedPool (α : Type) where
  elements : List α
  pulled_elements : List Nat
deriving DecidableEq

/-- `FixedPool::new` (src/lib.rs:19-45): collect the elements, build
`(len.saturating_sub(1) / usize::BITS) + 1` zero words, then, when
`len % usize::BITS > 0`, `fetch_or` the mask `usize::MAX << (len % BITS)`
into the last word (a fresh zero word, so the word becomes the mask). -/
def newOccupancy (n : Nat) : List Nat :=
  let pulled_element_len := (n - 1) / 64 + 1
  let remaining := n % 64
  let ws := List.replicate pulled_element_len 0
  if remaining > 0 then
    ws.set (pulled_element_len - 1) ((wordMax <<< remaining) % (2 ^ 64))
  else
    ws

/-- `FixedPool::new`: the element list plus the freshly built bitset. -/
def FixedPool.new (xs : List α) : FixedPool α :=
  { elements := xs, pulled_elements := newOccupancy xs.length }

/-- The per-word body of `FixedPool::pull`'s scan, in the sequential model:
`next_zero = present_value.trailing_ones()`; when `next_zero < usize::BITS`,
bit `next_zero` of the loaded word is zero, so the `fetch_or` claims it. -/
def pullFromWord (v : Nat) : Option Nat :=
  let next_zero := trailingOnes 64 v
  if next_zero < 64 then some next_zero else none

/-- The word-by-word scan of `FixedPool::pull` (src/lib.rs:49-66): on the
first word holding a zero bit, claim that bit (`fetch_or` of `1 << next_zero`)
and return the flat index `usize_index * usize::BITS + next_zero` together
with the updated bitset; if every word is exhausted, return `none`. -/
def pullWords : List Nat → Option (Nat × List Nat)
  | [] => none
  | v :: rest =>
    match pullFromWord v with
    | some next_zero => some (next_zero, (v ||| (1 <<< next_zero)) :: rest)
    | none =>
      match pullWords rest with
      | some (i, rest') => some (i + 64, v :: rest')
      | none => none

/-- `FixedPool::pull`: `Some` of the claimed index and the post-claim pool
(the borrow handle is the index), or `None` when every word is exhausted. -/
def FixedPool.pull (p : FixedPool α) : Option (Nat × FixedPool α) :=
  match pullWords p.pulled_elements with
  | some (i, occ') => some (i, { p with pulled_elements := occ' })
  | none => none

/-- Dereferencing a borrow handle (`Deref for PoolBorrow`,
src/lib.rs:111-117): `get_unchecked(index)` into `elements`; `none` models
the out-of-range access that `get_unchecked` leaves undefined. -/
def borrowDeref (p : FixedPool α) (index : Nat) : Option α :=
  elemAt? p.elements index

/-- The `fetch_and(!(1 << bit_index))` of `PoolBorrow::drop`
(src/lib.rs:129-135): clear bit `index % usize::BITS` of word
`index / usize::BITS` (`!m` on `usize` is `usize::MAX ^^^ m`). -/
def clearBit (occ : List Nat) (index : Nat) : List Nat :=
  occ.set (index / 64)
    (wordAt occ (index / 64) &&& (wordMax ^^^ (1 <<< (index % 64))))

/-- `PoolBorrow::drop` (src/lib.rs:125-138): first run `R::reset` on the
borrowed element (exclusive access through the handle), then clear the
handle's occupancy bit. -/
def FixedPool.dropBorrow (reset : α → α) (p : FixedPool α) (index : Nat) :
    FixedPool α :=
  { elements := modifyIdx reset index p.elements
    pulled_elements := clearBit p.pulled_elements index }

/-- `NoopReset` (src/lib.rs:150-152): `fn reset(_: &mut T) {}`. -/
def noopReset : α → α := fun x => x

/-- One observable step of a pool client, at operation granularity: a
successful pull makes a new handle index live; a failed pull changes
nothing; a live handle may write its element (`DerefMut`); dropping a live
handle runs `PoolBorrow::drop`.  The second component lists the indices of
the currently live borrow handles. -/
inductive Step (reset : α → α) :
    FixedPool α × List Nat → FixedPool α × List Nat → Prop
  | pull {p : FixedPool α} {live : List Nat} {i : Nat} {p' : FixedPool α} :
      p.pull = some (i, p') → Step reset (p, live) (p', i :: live)
  | pullFail {p : FixedPool α} {live : List Nat} :
      p.pull = none → Step reset (p, live) (p, live)
  | write {p : FixedPool α} {live : List Nat} {i : Nat} {v : α} :
      i ∈ live →
      Step reset (p, live)
        ({ p with elements := modifyIdx (fun _ => v) i p.elements }, live)
  | drop {p : FixedPool α} {live : List Nat} {i : Nat} :
      i ∈ live → Step reset (p, live) (p.dropBorrow reset i, live.erase i)

/-- States reachable from a freshly constructed pool with no live handles. -/
def Reachable (reset : α → α) (xs : List α)
    (s : FixedPool α × List Nat) : Prop :=
  Relation.ReflTransGen (Step reset) (FixedPool.new xs, []) s

/-! ### Basic lemmas about `trailingOnes` -/

theorem trailingOnes_le (fuel v : Nat) : trailingOnes fuel v ≤ fuel := by
  induction fuel generalizing v with
  | zero => simp [trailingOnes]
  | succ f ih =>
    unfold trailingOnes
    split
    · exact Nat.succ_le_succ (ih _)
    · exact Nat.zero_le _

theorem testBit_trailingOnes_eq_false {fuel v : Nat}
    (h : trailingOnes fuel v < fuel) :
    Nat.testBit v (trailingOnes fuel v) = false := by
  induction fuel generalizing v with
  | zero => omega
  | succ f ih =>
    unfold trailingOnes at h ⊢
    by_cases hv : v % 2 = 1
    · rw [if_pos hv] at h ⊢
      rw [Nat.testBit_succ]
      exact ih (by omega)
    · rw [if_neg hv] at h ⊢
      rw [Nat.testBit_zero]
      simpa using hv

theorem testBit_eq_true_of_lt_trailingOnes {fuel v j : Nat}
    (h : j < trailingOnes fuel v) : Nat.testBit v j = true := by
  induction fuel generalizing v j with
  | zero => simp [trailingOnes] at h
  | succ f ih =>
    unfold trailingOnes at h
    by_cases hv : v % 2 = 1
    · rw [if_pos hv] at h
      cases j with
      | zero => rw [Nat.testBit_zero]; simpa using hv
      | succ j' => rw [Nat.testBit_succ]; exact ih (by omega)
    · rw [if_neg hv] at h; omega

/-! ### Basic lemmas about `wordAt`, `elemAt?`, `modifyIdx` and `List.set` -/

theorem wordAt_set_self {l : List Nat} {i : Nat} (a : Nat)
    (h : i < l.length) : wordAt (l.set i a) i = a := by
  induction l generalizing i with
  | nil => simp at h
  | cons x xs ih =>
    cases i with
    | zero => rfl
    | succ n => exact ih (by simpa using h)

theorem wordAt_set_ne {l : List Nat} {i j : Nat} (a : Nat)
    (h : i ≠ j) : wordAt (l.set i a) j = wordAt l j := by
  induction l generalizing i j with
  | nil => rfl
  | cons x xs ih =>
    cases i with
    | zero => cases j with
      | zero => exact absurd rfl h
      | succ m => rfl
    | succ n => cases j with
      | zero => rfl
      | succ m => exact ih (by omega)

theorem wordAt_replicate (n j : Nat) :
    wordAt (List.replicate n (0 : Nat)) j = 0 := by
  induction n generalizing j with
  | zero => rfl
  | succ m ih =>
    cases j with
    | zero => rfl
    | succ k => exact ih k

theorem elemAt?_modifyIdx_self (f : α → α) (i : Nat) (l : List α) :
    elemAt? (modifyIdx f i l) i = (elemAt? l i).map f := by
  induction l generalizing i with
  | nil => cases i <;> rfl
  | cons x xs ih =>
    cases i with
    | zero => rfl
    | succ n => exact ih n

theorem elemAt?_modifyIdx_ne (f : α → α) {i j : Nat} (l : List α)
    (h : j ≠ i) : elemAt? (modifyIdx f i l) j = elemAt? l j := by
  induction l generalizing i j with
  | nil => cases i <;> rfl
  | cons x xs ih =>
    cases i with
    | zero => cases j with
      | zero => exact absurd rfl h
      | succ m => rfl
    | succ n => cases j with
      | zero => rfl
      | succ m => exact ih (by omega)

theorem length_modifyIdx (f : α → α) (i : Nat) (l : List α) :
    (modifyIdx f i l).length = l.length := by
  induction l generalizing i with
  | nil => cases i <;> rfl
  | cons x xs ih =>
    cases i with
    | zero => rfl
    | succ n => simpa [modifyIdx] using ih n

/-! ### Bit-level frame lemmas for claiming and releasing a slot -/

theorem occBit_setOr_self {occ : List Nat} {i : Nat}
    (h : i / 64 < occ.length) :
    occBit (occ.set (i / 64) (wordAt occ (i / 64) ||| (1 <<< (i % 64)))) i
      = true := by
  unfold occBit
  rw [wordAt_set_self _ h, Nat.one_shiftLeft, Nat.testBit_or,
    Nat.testBit_two_pow_self]
  simp

theorem occBit_setOr_ne {occ : List Nat} {i k : Nat} (h : k ≠ i) :
    occBit (occ.set (i / 64) (wordAt occ (i / 64) ||| (1 <<< (i % 64)))) k
      = occBit occ k := by
  unfold occBit
  by_cases hw : k / 64 = i / 64
  · have hb : k % 64 ≠ i % 64 := by omega
    rw [hw]
    by_cases hlen : i / 64 < occ.length
    · rw [wordAt_set_self _ hlen, Nat.one_shiftLeft, Nat.testBit_or,
        Nat.testBit_two_pow_of_ne (fun hc => hb hc.symm)]
      simp
    · rw [List.set_eq_of_length_le (by omega)]
  · rw [wordAt_set_ne _ (fun hc => hw hc.symm)]

theorem wordAt_eq_zero_of_length_le {occ : List Nat} {n : Nat}
    (h : occ.length ≤ n) : wordAt occ n = 0 := by
  induction occ generalizing n with
  | nil => rfl
  | cons x xs ih =>
    cases n with
    | zero => simp at h
    | succ m => exact ih (by simpa using h)

theorem occBit_clearBit_self (occ : List Nat) (i : Nat) :
    occBit (clearBit occ i) i = false := by
  unfold occBit clearBit
  by_cases hlen : i / 64 < occ.length
  · rw [wordAt_set_self _ hlen, Nat.one_shiftLeft, Nat.testBit_and,
      Nat.testBit_xor, Nat.testBit_two_pow_self]
    have : Nat.testBit wordMax (i % 64) = true := by
      unfold wordMax
      rw [Nat.testBit_two_pow_sub_one]
      exact decide_eq_true (by omega)
    rw [this]
    simp
  · rw [List.set_eq_of_length_le (by omega),
      wordAt_eq_zero_of_length_le (by omega)]
    exact Nat.zero_testBit _

theorem occBit_clearBit_ne (occ : List Nat) {i k : Nat} (h : k ≠ i) :
    occBit (clearBit occ i) k = occBit occ k := by
  unfold occBit clearBit
  by_cases hw : k / 64 = i / 64
  · have hb : k % 64 ≠ i % 64 := by omega
    rw [hw]
    by_cases hlen : i / 64 < occ.length
    · rw [wordAt_set_self _ hlen, Nat.one_shiftLeft, Nat.testBit_and,
        Nat.testBit_xor, Nat.testBit_two_pow_of_ne (fun hc => hb hc.symm)]
      have : Nat.testBit wordMax (k % 64) = true := by
        unfold wordMax
        rw [Nat.testBit_two_pow_sub_one]
        exact decide_eq_true (by omega)
      rw [this]
      simp
    · rw [List.set_eq_of_length_le (by omega)]
  · rw [wordAt_set_ne _ (fun hc => hw hc.symm)]

/-! ### Characterization of the claim scan -/

theorem pullFromWord_eq_some {v nz : Nat} (h : pullFromWord v = some nz) :
    nz = trailingOnes 64 v ∧ nz < 64 := by
  unfold pullFromWord at h
  by_cases hlt : trailingOnes 64 v < 64
  · rw [if_pos hlt] at h
    exact ⟨(Option.some_inj.mp h).symm, (Option.some_inj.mp h) ▸ hlt⟩
  · rw [if_neg hlt] at h
    exact absurd h (by simp)

theorem pullFromWord_eq_none {v : Nat} (h : pullFromWord v = none) :
    trailingOnes 64 v = 64 := by
  unfold pullFromWord at h
  by_cases hlt : trailingOnes 64 v < 64
  · rw [if_pos hlt] at h
    exact absurd h (by simp)
  · have := trailingOnes_le 64 v
    omega

theorem pullWords_some {occ occ' : List Nat} {i : Nat}
    (h : pullWords occ = some (i, occ')) :
    i < 64 * occ.length ∧ i / 64 < occ.length ∧
      Nat.testBit (wordAt occ (i / 64)) (i % 64) = false ∧
      occ' = occ.set (i / 64)
        (wordAt occ (i / 64) ||| (1 <<< (i % 64))) := by
  induction occ generalizing i occ' with
  | nil => exact absurd h (by simp [pullWords])
  | cons v rest ih =>
    cases h1 : pullFromWord v with
    | some nz =>
      simp only [pullWords, h1, Option.some.injEq, Prod.mk.injEq] at h
      obtain ⟨hi, hocc⟩ := h
      obtain ⟨hnz, hlt⟩ := pullFromWord_eq_some h1
      subst hi
      have hdiv : nz / 64 = 0 := Nat.div_eq_of_lt hlt
      have hmod : nz % 64 = nz := Nat.mod_eq_of_lt hlt
      refine ⟨by simp; omega, by simp [hdiv], ?_, ?_⟩
      · rw [hdiv, hmod]
        show Nat.testBit v nz = false
        rw [hnz]
        exact testBit_trailingOnes_eq_false (by omega)
      · rw [hdiv, hmod]
        exact hocc.symm
    | none =>
      cases h2 : pullWords rest with
      | some r =>
        obtain ⟨i', rest'⟩ := r
        simp only [pullWords, h1, h2, Option.some.injEq, Prod.mk.injEq] at h
        obtain ⟨hi, hocc⟩ := h
        obtain ⟨ha, hb, hc, hd⟩ := ih h2
        subst hi
        have hdiv : (i' + 64) / 64 = i' / 64 + 1 := by omega
        have hmod : (i' + 64) % 64 = i' % 64 := by omega
        refine ⟨by simp; omega, by simp [hdiv]; omega, ?_, ?_⟩
        · rw [hdiv, hmod]
          exact hc
        · rw [hdiv, hmod, ← hocc, hd]
          rfl
      | none =>
        simp only [pullWords, h1, h2] at h
        exact absurd h (by simp)

theorem pullWords_eq_none {occ : List Nat} (h : pullWords occ = none) :
    ∀ j < occ.length, trailingOnes 64 (wordAt occ j) = 64 := by
  induction occ with
  | nil => intro j hj; simp at hj
  | cons v rest ih =>
    rw [pullWords] at h
    cases h1 : pullFromWord v with
    | some nz => rw [h1] at h; exact absurd h (by simp)
    | none =>
      rw [h1] at h
      cases h2 : pullWords rest with
      | some r => rw [h2] at h; exact absurd h (by simp)
      | none =>
        intro j hj
        cases j with
        | zero => exact pullFromWord_eq_none h1
        | succ m => exact ih h2 m (by simpa using hj)

theorem pullWords_isSome_of_bit_false {occ : List Nat} {k : Nat}
    (hbit : occBit occ k = false) (hlen : k / 64 < occ.length) :
    (pullWords occ).isSome = true := by
  cases h : pullWords occ with
  | some r => rfl
  | none =>
    have h64 : trailingOnes 64 (wordAt occ (k / 64)) = 64 :=
      pullWords_eq_none h (k / 64) hlen
    have hk : k % 64 < trailingOnes 64 (wordAt occ (k / 64)) := by
      rw [h64]; omega
    have : Nat.testBit (wordAt occ (k / 64)) (k % 64) = true :=
      testBit_eq_true_of_lt_trailingOnes hk
    rw [occBit] at hbit
    rw [this] at hbit
    exact absurd hbit (by simp)

/-! ### The protocol invariant maintained along every trace -/

theorem pull_eq_some {p : FixedPool α} {i : Nat} {p' : FixedPool α}
    (h : p.pull = some (i, p')) :
    pullWords p.pulled_elements = some (i, p'.pulled_elements) ∧
      p'.elements = p.elements := by
  unfold FixedPool.pull at h
  cases hw : pullWords p.pulled_elements with
  | none => rw [hw] at h; exact absurd h (by simp)
  | some r =>
    obtain ⟨j, occ'⟩ := r
    rw [hw] at h
    simp only [Option.some.injEq, Prod.mk.injEq] at h
    obtain ⟨hj, hp⟩ := h
    subst hj
    rw [← hp]
    exact ⟨rfl, rfl⟩

theorem pull_eq_none {p : FixedPool α} (h : p.pull = none) :
    pullWords p.pulled_elements = none := by
  unfold FixedPool.pull at h
  cases hw : pullWords p.pulled_elements with
  | none => rfl
  | some r => rw [hw] at h; exact absurd h (by simp)

/-- The invariant every reachable pool state satisfies: live handle indices
are pairwise distinct, lie within the bitset's bit range, and their
occupancy bits are set. -/
structure TraceInv (s : FixedPool α × List Nat) : Prop where
  nodup : s.2.Nodup
  liveLt : ∀ i ∈ s.2, i < 64 * s.1.pulled_elements.length
  liveBit : ∀ i ∈ s.2, occBit s.1.pulled_elements i = true

theorem traceInv_init (xs : List α) : TraceInv (FixedPool.new xs, []) :=
  ⟨List.Pairwise.nil, nofun, nofun⟩

theorem traceInv_step {reset : α → α} {s s' : FixedPool α × List Nat}
    (hstep : Step reset s s') (hinv : TraceInv s) : TraceInv s' := by
  cases hstep with
  | pull h =>
    rename_i p live i p'
    obtain ⟨hw, helems⟩ := pull_eq_some h
    obtain ⟨ha, hb, hc, hd⟩ := pullWords_some hw
    have hbit : occBit p.pulled_elements i = false := hc
    have hlen : p'.pulled_elements.length = p.pulled_elements.length := by
      rw [hd]; exact List.length_set ..
    have hne : ∀ j ∈ live, j ≠ i := by
      intro j hj hji
      have := hinv.liveBit j hj
      rw [hji, hbit] at this
      exact absurd this (by simp)
    refine ⟨?_, ?_, ?_⟩
    · exact List.Pairwise.cons (fun j hj => (hne j hj).symm) hinv.nodup
    · intro j hj
      rcases List.mem_cons.mp hj with hji | hj'
      · rw [hji, hlen]; exact ha
      · rw [hlen]; exact hinv.liveLt j hj'
    · intro j hj
      rcases List.mem_cons.mp hj with hji | hj'
      · rw [hji, hd]; exact occBit_setOr_self hb
      · rw [hd]
        rw [occBit_setOr_ne (hne j hj')]
        exact hinv.liveBit j hj'
  | pullFail h => exact hinv
  | write h => exact ⟨hinv.nodup, hinv.liveLt, hinv.liveBit⟩
  | drop h =>
    rename_i p live i
    refine ⟨hinv.nodup.erase i, ?_, ?_⟩
    · intro j hj
      have hlen : (clearBit p.pulled_elements i).length
          = p.pulled_elements.length := List.length_set ..
      show j < 64 * (clearBit p.pulled_elements i).length
      rw [hlen]
      exact hinv.liveLt j (List.mem_of_mem_erase hj)
    · intro j hj
      obtain ⟨hji, hj'⟩ := (hinv.nodup.mem_erase_iff).mp hj
      show occBit (clearBit p.pulled_elements i) j = true
      rw [occBit_clearBit_ne _ hji]
      exact hinv.liveBit j hj'

theorem reachable_traceInv {reset : α → α} {xs : List α}
    {s : FixedPool α × List Nat} (h : Reachable reset xs s) : TraceInv s := by
  induction h with
  | refl => exact traceInv_init xs
  | tail hsteps hstep ih => exact traceInv_step hstep ih

/-! ### General helper facts -/

theorem pull_isSome_eq {p : FixedPool α} :
    (p.pull).isSome = (pullWords p.pulled_elements).isSome := by
  unfold FixedPool.pull
  cases h : pullWords p.pulled_elements <;> rfl

theorem newOccupancy_length (n : Nat) :
    (newOccupancy n).length = (n - 1) / 64 + 1 := by
  unfold newOccupancy
  dsimp only
  split <;> simp

/-! ### The claims -/

/-- C1: the specification says a pool constructed with zero values always
returns none on claim.  The code violates this: `remaining_elements_len`
is `0 % 64 = 0` for an empty pool, so no padding bit is ever set in the
single all-zero occupancy word, and `pull` claims bit 0 and returns a
borrow handle with index 0 into the empty element vector. -/
theorem pull_on_empty_pool_returns_some :
    (FixedPool.new ([] : List Unit)).pull = some (0, ⟨[], [1]⟩) := by decide

/-- C2: the claim that, right after construction, every occupancy bit at a
position at or beyond the element count inside the last word is 1 fails for
a pool of zero values: the element count is 0, so every position of the
single word is a padding position, yet the word is 0 (witnessed at bit 0). -/
theorem empty_pool_padding_bits_unset :
    (FixedPool.new ([] : List Unit)).elements.length = 0 ∧
      (FixedPool.new ([] : List Unit)).pulled_elements = [0] ∧
      occBit (FixedPool.new ([] : List Unit)).pulled_elements 0 = false :=
  ⟨rfl, by decide, by decide⟩

/-- C3 counterexample: for a pool of zero values the occupancy bitset has
length 1, not `ceil(0 / 64) = 0` as the claim's formula demands. -/
theorem occupancy_length_ne_ceil_of_empty :
    (FixedPool.new ([] : List Unit)).pulled_elements.length
      ≠ (0 + 64 - 1) / 64 := by decide

/-- C3 amended: the occupancy bitset of a pool of `N` values has length
`max 1 (ceil(N / 64))`, i.e. `(N.saturating_sub(1)) / 64 + 1`: the ceiling
of `N / 64` for `N ≥ 1` and a single word for `N = 0`. -/
theorem occupancy_length_eq_max_one_ceil {α : Type} (xs : List α) :
    (FixedPool.new xs).pulled_elements.length
      = max 1 ((xs.length + 64 - 1) / 64) := by
  show (newOccupancy xs.length).length = _
  rw [newOccupancy_length]
  omega

/-- C4: the claim that `pull` returns none exactly when every one of the
pool's `N` slots is occupied, and that at most `N` handles are ever live,
fails for `N = 0`: the empty pool's zero slots are all (vacuously) occupied
at the moment of the scan, yet `pull` succeeds, and one step later one
borrow handle is live on a zero-capacity pool. -/
theorem empty_pool_vacuously_exhausted_pull_some :
    (∀ i < (FixedPool.new ([] : List Unit)).elements.length,
        occBit (FixedPool.new ([] : List Unit)).pulled_elements i = true) ∧
      ((FixedPool.new ([] : List Unit)).pull).isSome = true ∧
      Step noopReset (FixedPool.new ([] : List Unit), []) (⟨[], [1]⟩, [0]) ∧
      ¬ ([0] : List Nat).length
          ≤ (FixedPool.new ([] : List Unit)).elements.length :=
  ⟨by decide, by decide, Step.pull (by decide), by decide⟩

/-- C5: the claim that every successfully pulled handle has index below the
element count (so dereferencing always resolves to a valid cell) fails for
the empty pool: `pull` succeeds with index 0, which is not below the
element count 0, and dereferencing resolves to no element cell at all. -/
theorem empty_pool_borrow_index_out_of_range :
    ∃ r : Nat × FixedPool Unit,
      (FixedPool.new ([] : List Unit)).pull = some r ∧
        ¬ r.1 < (FixedPool.new ([] : List Unit)).elements.length ∧
        borrowDeref r.2 r.1 = none :=
  ⟨(0, ⟨[], [1]⟩), by decide, by decide, by decide⟩

/-- C6: in every state reachable by pulls, writes and drops from a freshly
constructed pool, the indices of the simultaneously live borrow handles are
pairwise distinct. -/
theorem reachable_live_indices_pairwise_distinct {α : Type} (reset : α → α)
    (xs : List α) (s : FixedPool α × List Nat) (h : Reachable reset xs s) :
    s.2.Pairwise (· ≠ ·) :=
  (reachable_traceInv h).nodup

/-- Witness for C6 at the pool `[1, 2, 3]` after two successful pulls. -/
theorem reachable_live_indices_pairwise_distinct_witness :
    ([1, 0] : List Nat).Pairwise (· ≠ ·) :=
  reachable_live_indices_pairwise_distinct noopReset [1, 2, 3]
    (⟨[1, 2, 3], [18446744073709551611]⟩, [1, 0])
    (Relation.ReflTransGen.tail
      (Relation.ReflTransGen.single (Step.pull
        (show (FixedPool.new ([1, 2, 3] : List Nat)).pull
            = some (0, ⟨[1, 2, 3], [18446744073709551609]⟩) by decide)))
      (Step.pull
        (show (FixedPool.pull ⟨[1, 2, 3], [18446744073709551609]⟩)
            = some (1, ⟨[1, 2, 3], [18446744073709551611]⟩) by decide)))

/-- C7: dropping any live borrow handle of a reachable pool state makes the
next pull (with no concurrent claimant in between) succeed, and the
returned index may be the just-freed slot, as the concrete run on `[5, 6]`
shows: slot 0 is claimed, dropped, and the next pull claims slot 0 again. -/
theorem pull_after_drop_succeeds {α : Type} (reset : α → α) (xs : List α)
    (s : FixedPool α × List Nat) (i : Nat)
    (hr : Reachable reset xs s) (hi : i ∈ s.2) :
    ((FixedPool.dropBorrow reset s.1 i).pull).isSome = true ∧
      ((FixedPool.new ([5, 6] : List Nat)).pull
          = some (0, ⟨[5, 6], [18446744073709551613]⟩) ∧
        (FixedPool.dropBorrow noopReset ⟨[5, 6], [18446744073709551613]⟩
            0).pull
          = some (0, ⟨[5, 6], [18446744073709551613]⟩)) := by
  constructor
  · have hinv := reachable_traceInv hr
    have hlt := hinv.liveLt i hi
    have hlen : ((FixedPool.dropBorrow reset s.1 i).pulled_elements).length
        = s.1.pulled_elements.length := List.length_set ..
    rw [pull_isSome_eq]
    exact pullWords_isSome_of_bit_false (occBit_clearBit_self _ i) (by omega)
  · exact ⟨by decide, by decide⟩

/-- Witness for C7: pull slot 0 of the pool `[5, 6]`, then drop it. -/
theorem pull_after_drop_succeeds_witness :
    ((FixedPool.dropBorrow (noopReset (α := Nat))
        ⟨[5, 6], [18446744073709551613]⟩ 0).pull).isSome = true :=
  (pull_after_drop_succeeds noopReset [5, 6]
    (⟨[5, 6], [18446744073709551613]⟩, [0]) 0
    (Relation.ReflTransGen.single (Step.pull
      (show (FixedPool.new ([5, 6] : List Nat)).pull
          = some (0, ⟨[5, 6], [18446744073709551613]⟩) by decide)))
    (by decide)).1

/-- C8: destroying a borrow handle applies the reset policy to the slot's
value exactly once, before the slot becomes claimable again; a later claim
of the same slot therefore observes the reset state, never the pre-drop
mutated state.  Concretely: slot 0 of a one-element pool holds the mutated
value 99; dropping the handle with reset policy `Nat.succ` stores 100
(one application) and only then clears bit 0; the next pull claims slot 0
and observes 100, not 99. -/
theorem reset_applied_once_before_slot_reuse {α : Type} (reset : α → α)
    (p : FixedPool α) (i : Nat) :
    elemAt? (FixedPool.dropBorrow reset p i).elements i
        = (elemAt? p.elements i).map reset ∧
      (FixedPool.dropBorrow Nat.succ ⟨[99], [18446744073709551615]⟩ 0
          = (⟨[100], [18446744073709551614]⟩ : FixedPool Nat) ∧
        FixedPool.pull ⟨[100], [18446744073709551614]⟩
          = some (0, ⟨[100], [18446744073709551615]⟩) ∧
        borrowDeref (⟨[100], [18446744073709551615]⟩ : FixedPool Nat) 0
          = some 100 ∧
        (some 100 : Option Nat) ≠ some 99) :=
  ⟨elemAt?_modifyIdx_self reset i p.elements,
    by decide, by decide, by decide, by decide⟩

/-- C9: the literal scenario on the pool `[1, 2, 3]` with the no-op reset
policy: three pulls succeed with the distinct indices 0, 1, 2; a fourth
pull returns none; the handle with value 2 is the one at index 1; dropping
it lets the next pull succeed at index 1 with the value still 2. -/
theorem literal_scenario_pool_three :
    (FixedPool.new ([1, 2, 3] : List Nat)).pull
        = some (0, ⟨[1, 2, 3], [18446744073709551609]⟩) ∧
      FixedPool.pull ⟨[1, 2, 3], [18446744073709551609]⟩
        = some (1, ⟨[1, 2, 3], [18446744073709551611]⟩) ∧
      FixedPool.pull ⟨[1, 2, 3], [18446744073709551611]⟩
        = some (2, ⟨[1, 2, 3], [18446744073709551615]⟩) ∧
      FixedPool.pull ⟨[1, 2, 3], [18446744073709551615]⟩ = none ∧
      ([0, 1, 2] : List Nat).Pairwise (· ≠ ·) ∧
      borrowDeref (⟨[1, 2, 3], [18446744073709551615]⟩ : FixedPool Nat) 1
        = some 2 ∧
      FixedPool.dropBorrow noopReset ⟨[1, 2, 3], [18446744073709551615]⟩ 1
        = (⟨[1, 2, 3], [18446744073709551613]⟩ : FixedPool Nat) ∧
      FixedPool.pull ⟨[1, 2, 3], [18446744073709551613]⟩
        = some (1, ⟨[1, 2, 3], [18446744073709551615]⟩) ∧
      borrowDeref (⟨[1, 2, 3], [18446744073709551615]⟩ : FixedPool Nat) 1
        = some 2 := by
  refine ⟨by decide, by decide, by decide, by decide, by decide,
    by decide, by decide, by decide, by decide⟩

/-- C10: a successful pull sets exactly the occupancy bit of the returned
index and touches no element cell and no other bit; dropping that handle
clears exactly its occupancy bit and, apart from the reset policy acting on
the handle's own element, changes no other bit or element cell. -/
theorem pull_and_drop_frame {α : Type} (reset : α → α)
    {p p' : FixedPool α} {i : Nat} (h : p.pull = some (i, p')) :
    p'.elements = p.elements ∧
      p'.pulled_elements.length = p.pulled_elements.length ∧
      occBit p.pulled_elements i = false ∧
      occBit p'.pulled_elements i = true ∧
      (∀ k, k ≠ i →
        occBit p'.pulled_elements k = occBit p.pulled_elements k) ∧
      occBit (FixedPool.dropBorrow reset p' i).pulled_elements i = false ∧
      (∀ k, k ≠ i →
        occBit (FixedPool.dropBorrow reset p' i).pulled_elements k
          = occBit p'.pulled_elements k) ∧
      (∀ j, j ≠ i →
        elemAt? (FixedPool.dropBorrow reset p' i).elements j
          = elemAt? p'.elements j) ∧
      (FixedPool.dropBorrow reset p' i).elements.length
        = p'.elements.length := by
  obtain ⟨hw, helems⟩ := pull_eq_some h
  obtain ⟨ha, hb, hc, hd⟩ := pullWords_some hw
  refine ⟨helems, by rw [hd]; exact List.length_set .., hc, ?_, ?_, ?_,
    ?_, ?_, ?_⟩
  · rw [hd]; exact occBit_setOr_self hb
  · intro k hk; rw [hd]; exact occBit_setOr_ne hk
  · exact occBit_clearBit_self ..
  · intro k hk; exact occBit_clearBit_ne _ hk
  · intro j hj; exact elemAt?_modifyIdx_ne reset _ hj
  · exact length_modifyIdx ..

/-- Witness for C10 at the first pull of the pool `[1, 2, 3]`. -/
theorem pull_and_drop_frame_witness :
    occBit [18446744073709551609] 0 = true ∧
      occBit [18446744073709551609] 5 = occBit [18446744073709551608] 5 :=
  ⟨(pull_and_drop_frame Nat.succ
      (show (FixedPool.new ([1, 2, 3] : List Nat)).pull
          = some (0, ⟨[1, 2, 3], [18446744073709551609]⟩)
        by decide)).2.2.2.1,
    (pull_and_drop_frame Nat.succ
      (show (FixedPool.new ([1, 2, 3] : List Nat)).pull
          = some (0, ⟨[1, 2, 3], [18446744073709551609]⟩)
        by decide)).2.2.2.2.1 5 (by decide)⟩
